import Mathlib

/-!
Verification of the ridge-regression encoding and resampling-statistics core of
the Mid-level-features analysis pipeline.  The Python sources
(`OLS_pytorch.fit/predict/score`, `vectorized_correlation`,
`hyperparameter_tuning`, `bootstrapping_CI`, `permutation_test`) are embedded
shallowly: float arrays become matrices over `ℝ` (or `ℚ` where no square root
occurs), `torch.cholesky_solve`/`torch.linalg.solve` become exact-arithmetic
multiplication by the inverse of the Gram matrix, and the sources of
randomness (sign flips, resampled subject indices) become explicit parameters.
-/

namespace Encoding

open Matrix

/-- `OLS_pytorch.concatenate_ones`: prepend a constant column of ones to the
design matrix; the intercept column is column `0`. -/
def concatenate_ones {m p : ℕ} (X : Matrix (Fin m) (Fin p) ℝ) :
    Matrix (Fin m) (Fin (p + 1)) ℝ :=
  Matrix.of fun i j => Fin.cases 1 (fun k => X i k) j

/-- Penalty block built by the EEG variant of `OLS_pytorch.fit`:
`np.eye(columns) * np.sqrt(alpha)` — note that no entry is zeroed. -/
noncomputable def penalty_matrix_eeg (n : ℕ) (alpha : ℝ) : Matrix (Fin n) (Fin n) ℝ :=
  Matrix.of fun i j => (if i = j then (1 : ℝ) else 0) * Real.sqrt alpha

/-- Penalty block built by the CNN variant of `OLS_pytorch.fit`:
`np.eye(columns)` with `penalty_matrix[0, 0] = 0`, then scaled by
`np.sqrt(alpha)`. -/
noncomputable def penalty_matrix_cnn (n : ℕ) (alpha : ℝ) : Matrix (Fin n) (Fin n) ℝ :=
  Matrix.of fun i j =>
    (if i = j then (if (i : ℕ) = 0 then (0 : ℝ) else 1) else 0) * Real.sqrt alpha

/-- Gram matrix `XtX` of the ridge-augmented system `X = vstack(X1, P)`. -/
noncomputable def ridge_gram {m n : ℕ} (X1 : Matrix (Fin m) (Fin n) ℝ)
    (P : Matrix (Fin n) (Fin n) ℝ) : Matrix (Fin n) (Fin n) ℝ :=
  (Matrix.fromRows X1 P)ᵀ * Matrix.fromRows X1 P

/-- Right-hand side `Xty` of the augmented system, with `y` stacked over a
zero block of matching shape. -/
noncomputable def ridge_rhs {m n q : ℕ} (X1 : Matrix (Fin m) (Fin n) ℝ)
    (P : Matrix (Fin n) (Fin n) ℝ) (y : Matrix (Fin m) (Fin q) ℝ) :
    Matrix (Fin n) (Fin q) ℝ :=
  (Matrix.fromRows X1 P)ᵀ * Matrix.fromRows y (0 : Matrix (Fin n) (Fin q) ℝ)

/-- Coefficients computed by the EEG `OLS_pytorch.fit` with the default
`intercept=True` configuration: the exact-arithmetic content of
`cholesky_solve(Xty, L)` (and of `linalg.solve(XtX, Xty)`) is multiplication
of `Xty` by the inverse of the augmented Gram matrix. -/
noncomputable def fit_eeg {m p q : ℕ} (X : Matrix (Fin m) (Fin p) ℝ)
    (y : Matrix (Fin m) (Fin q) ℝ) (alpha : ℝ) :
    Matrix (Fin (p + 1)) (Fin q) ℝ :=
  (ridge_gram (concatenate_ones X) (penalty_matrix_eeg (p + 1) alpha))⁻¹ *
    ridge_rhs (concatenate_ones X) (penalty_matrix_eeg (p + 1) alpha) y

/-- Coefficients computed by the CNN `OLS_pytorch.fit` with the default
`intercept=True` configuration; it differs from the EEG variant only in the
penalty block. -/
noncomputable def fit_cnn {m p q : ℕ} (X : Matrix (Fin m) (Fin p) ℝ)
    (y : Matrix (Fin m) (Fin q) ℝ) (alpha : ℝ) :
    Matrix (Fin (p + 1)) (Fin q) ℝ :=
  (ridge_gram (concatenate_ones X) (penalty_matrix_cnn (p + 1) alpha))⁻¹ *
    ridge_rhs (concatenate_ones X) (penalty_matrix_cnn (p + 1) alpha) y

/-- Modelled from the spec (reference side of the refinement claim C5): the
ordinary-least-squares normal-equations solution `XᵀX β = Xᵀy` of the
intercept-augmented system, with the ones column prepended. -/
noncomputable def ols_normal_eq {m p q : ℕ} (X : Matrix (Fin m) (Fin p) ℝ)
    (y : Matrix (Fin m) (Fin q) ℝ) : Matrix (Fin (p + 1)) (Fin q) ℝ :=
  ((concatenate_ones X)ᵀ * concatenate_ones X)⁻¹ * ((concatenate_ones X)ᵀ * y)

lemma penalty_matrix_eeg_zero (n : ℕ) : penalty_matrix_eeg n 0 = 0 := by
  ext i j
  simp [penalty_matrix_eeg]

lemma penalty_matrix_cnn_zero (n : ℕ) : penalty_matrix_cnn n 0 = 0 := by
  ext i j
  simp [penalty_matrix_cnn]

lemma ridge_gram_zero {m n : ℕ} (X1 : Matrix (Fin m) (Fin n) ℝ) :
    ridge_gram X1 (0 : Matrix (Fin n) (Fin n) ℝ) = X1ᵀ * X1 := by
  rw [ridge_gram, Matrix.transpose_fromRows, Matrix.fromColumns_mul_fromRows]
  simp

lemma ridge_rhs_zero {m n q : ℕ} (X1 : Matrix (Fin m) (Fin n) ℝ)
    (y : Matrix (Fin m) (Fin q) ℝ) :
    ridge_rhs X1 (0 : Matrix (Fin n) (Fin n) ℝ) y = X1ᵀ * y := by
  rw [ridge_rhs, Matrix.transpose_fromRows, Matrix.fromColumns_mul_fromRows]
  simp

/-- C5: with penalty 0 and the intercept enabled, the coefficients computed by
`fit` (both the EEG and the CNN variant) equal the ordinary-least-squares
normal-equations solution of the intercept-augmented system. -/
theorem fit_zero_penalty_is_ols {m p q : ℕ} (X : Matrix (Fin m) (Fin p) ℝ)
    (y : Matrix (Fin m) (Fin q) ℝ) :
    fit_eeg X y 0 = ols_normal_eq X y ∧ fit_cnn X y 0 = ols_normal_eq X y := by
  constructor
  · rw [fit_eeg, penalty_matrix_eeg_zero, ridge_gram_zero, ridge_rhs_zero,
      ols_normal_eq]
  · rw [fit_cnn, penalty_matrix_cnn_zero, ridge_gram_zero, ridge_rhs_zero,
      ols_normal_eq]

/-- C2 counterexample: in the EEG variant of `fit`, the diagonal entry of the
`√penalty·I` augmentation block that corresponds to the intercept column is
NOT zeroed: at penalty 4 it equals `√4 = 2`. -/
theorem intercept_penalty_entry_not_zero :
    penalty_matrix_eeg 2 4 0 0 = 2 ∧ penalty_matrix_eeg 2 4 0 0 ≠ 0 := by
  have h : penalty_matrix_eeg 2 4 0 0 = Real.sqrt 4 := by
    simp [penalty_matrix_eeg]
  have h4 : Real.sqrt 4 = 2 := by
    rw [show (4 : ℝ) = 2 ^ 2 by norm_num, Real.sqrt_sq (by norm_num : (0:ℝ) ≤ 2)]
  refine ⟨h.trans h4, ?_⟩
  rw [h, h4]
  norm_num

/-- C2 amended: `fit` with intercept enabled prepends a constant column of
ones in both variants; the CNN variant zeroes the intercept's diagonal entry
of the `√penalty·I` block, while the EEG variant leaves it at `√penalty`,
i.e. penalizes the intercept as well. -/
theorem intercept_penalty_variants {m p : ℕ} (X : Matrix (Fin m) (Fin p) ℝ)
    (alpha : ℝ) (i : Fin m) :
    concatenate_ones X i 0 = 1 ∧
    penalty_matrix_cnn (p + 1) alpha 0 0 = 0 ∧
    penalty_matrix_eeg (p + 1) alpha 0 0 = Real.sqrt alpha := by
  refine ⟨?_, ?_, ?_⟩
  · simp [concatenate_ones]
  · simp [penalty_matrix_cnn]
  · simp [penalty_matrix_eeg]

/-- `OLS_pytorch.predict`: prepend the intercept column to the entry matrix
and multiply by the stored coefficients. -/
def predict {m p q : ℕ} (coeffs : Matrix (Fin (p + 1)) (Fin q) ℝ)
    (entry : Matrix (Fin m) (Fin p) ℝ) : Matrix (Fin m) (Fin q) ℝ :=
  concatenate_ones entry * coeffs

/-- `OLS_pytorch.score` with `channelwise=True`: per channel, sum the squared
residuals over the samples, divide by `columns` (the number of channels!),
and take the square root. -/
noncomputable def score_channelwise {m p q : ℕ}
    (coeffs : Matrix (Fin (p + 1)) (Fin q) ℝ) (entry : Matrix (Fin m) (Fin p) ℝ)
    (y : Matrix (Fin m) (Fin q) ℝ) (ch : Fin q) : ℝ :=
  Real.sqrt ((∑ i, (y i ch - predict coeffs entry i ch) ^ 2) / q)

/-- `OLS_pytorch.score` with `channelwise=False`: the grand sum of squared
residuals divided by `rows * columns`, square-rooted. -/
noncomputable def score_pooled {m p q : ℕ}
    (coeffs : Matrix (Fin (p + 1)) (Fin q) ℝ) (entry : Matrix (Fin m) (Fin p) ℝ)
    (y : Matrix (Fin m) (Fin q) ℝ) : ℝ :=
  Real.sqrt ((∑ i, ∑ ch, (y i ch - predict coeffs entry i ch) ^ 2) / (m * q))

/-- C1: at the failing input (2 samples, 1 channel, zero coefficients,
targets 3 and 4) the channelwise score divides the channel's sum of squared
residuals 25 by the channel count 1, returning `√25 = 5`, and NOT by the
sample count 2 as the spec's contract requires (`√(25/2)`); the pooled score
does divide by samples×channels. -/
theorem score_channelwise_divides_by_channels :
    score_channelwise (0 : Matrix (Fin 2) (Fin 1) ℝ) 0
        (Matrix.of ![![(3 : ℝ)], ![4]]) 0 = 5 ∧
    score_channelwise (0 : Matrix (Fin 2) (Fin 1) ℝ) 0
        (Matrix.of ![![(3 : ℝ)], ![4]]) 0 ≠ Real.sqrt (25 / 2) ∧
    score_pooled (0 : Matrix (Fin 2) (Fin 1) ℝ) 0
        (Matrix.of ![![(3 : ℝ)], ![4]]) = Real.sqrt (25 / 2) := by
  have hpred : predict (0 : Matrix (Fin 2) (Fin 1) ℝ)
      (0 : Matrix (Fin 2) (Fin 1) ℝ) = 0 := by
    simp [predict]
  have hch : score_channelwise (0 : Matrix (Fin 2) (Fin 1) ℝ) 0
      (Matrix.of ![![(3 : ℝ)], ![4]]) 0 = 5 := by
    rw [score_channelwise, hpred]
    rw [show (∑ i : Fin 2, ((Matrix.of ![![(3 : ℝ)], ![4]]) i 0 -
        (0 : Matrix (Fin 2) (Fin 1) ℝ) i 0) ^ 2) = 25 by
      simp [Fin.sum_univ_two]
      norm_num]
    rw [show ((25 : ℝ) / (1 : ℕ)) = 5 ^ 2 by norm_num]
    exact Real.sqrt_sq (by norm_num)
  refine ⟨hch, ?_, ?_⟩
  · rw [hch]
    intro h
    have h2 : Real.sqrt (25 / 2) < 5 := by
      rw [show (5 : ℝ) = Real.sqrt (5 ^ 2) from (Real.sqrt_sq (by norm_num)).symm]
      apply Real.sqrt_lt_sqrt <;> norm_num
    rw [← h] at h2
    exact lt_irrefl _ h2
  · rw [score_pooled, hpred]
    congr 1
    rw [show (∑ i : Fin 2, ∑ ch : Fin 1, ((Matrix.of ![![(3 : ℝ)], ![4]]) i ch -
        (0 : Matrix (Fin 2) (Fin 1) ℝ) i ch) ^ 2) = 25 by
      simp [Fin.sum_univ_two]
      norm_num]
    norm_num

/-- The solver strategies accepted by `OLS_pytorch.fit`. -/
inductive Solver where
  | cholesky
  | lstsq
  | solve

/-- Model of `torch.linalg.lstsq(A, B).solution` via the least-squares normal
equations (exact in real arithmetic for full column rank); the EEG `fit`
calls it with arguments `(Xty, XtX)` in that order. -/
noncomputable def lstsq_sol {a b c : ℕ} (A : Matrix (Fin a) (Fin b) ℝ)
    (B : Matrix (Fin a) (Fin c) ℝ) : Matrix (Fin b) (Fin c) ℝ :=
  (Aᵀ * A)⁻¹ * (Aᵀ * B)

/-- The EEG `OLS_pytorch.fit` as a transformer of the model object's
`coefficients` field (initially the empty list, modelled as `none`): the
result is the pair (new stored coefficients, returned value).  In the
`lstsq` branch the method returns before the assignment
`self.coefficients = lstsq_coefficients.t()` executes, so the stored field
is passed through unchanged. -/
noncomputable def fit_eeg_state {m p q : ℕ}
    (stored : Option (Matrix (Fin (p + 1)) (Fin q) ℝ))
    (X : Matrix (Fin m) (Fin p) ℝ) (y : Matrix (Fin m) (Fin q) ℝ) (alpha : ℝ) :
    Solver → Option (Matrix (Fin (p + 1)) (Fin q) ℝ) × Matrix (Fin (p + 1)) (Fin q) ℝ
  | Solver.cholesky => (some (fit_eeg X y alpha), fit_eeg X y alpha)
  | Solver.lstsq =>
      (stored,
        (lstsq_sol
            (ridge_rhs (concatenate_ones X) (penalty_matrix_eeg (p + 1) alpha) y)
            (ridge_gram (concatenate_ones X) (penalty_matrix_eeg (p + 1) alpha)))ᵀ)
  | Solver.solve => (some (fit_eeg X y alpha), fit_eeg X y alpha)

/-- `predict` as read from the model object's stored `coefficients` field. -/
noncomputable def predict_state {m p q : ℕ}
    (stored : Option (Matrix (Fin (p + 1)) (Fin q) ℝ))
    (entry : Matrix (Fin m) (Fin p) ℝ) : Option (Matrix (Fin m) (Fin q) ℝ) :=
  stored.map fun c => predict c entry

/-- C10: in the EEG variant, `fit` with `solver="lstsq"` leaves the model's
stored coefficients unchanged (in particular, a freshly initialized model
still has no coefficients afterwards), so a subsequent `predict` does not
use the least-squares result of that call. -/
theorem fit_lstsq_leaves_coefficients {m m' p q : ℕ}
    (stored : Option (Matrix (Fin (p + 1)) (Fin q) ℝ))
    (X : Matrix (Fin m) (Fin p) ℝ) (y : Matrix (Fin m) (Fin q) ℝ) (alpha : ℝ)
    (entry : Matrix (Fin m') (Fin p) ℝ) :
    (fit_eeg_state stored X y alpha Solver.lstsq).1 = stored ∧
    predict_state (fit_eeg_state stored X y alpha Solver.lstsq).1 entry =
      predict_state stored entry ∧
    (fit_eeg_state (none : Option (Matrix (Fin (p + 1)) (Fin q) ℝ))
        X y alpha Solver.lstsq).1 = none := by
  exact ⟨rfl, rfl, rfl⟩

/-- Column mean (`x.mean(axis=0)`). -/
noncomputable def col_mean {m c : ℕ} (x : Matrix (Fin m) (Fin c) ℝ) (ch : Fin c) : ℝ :=
  (∑ i, x i ch) / m

/-- Column standard deviation `x.std(axis=0)`: numpy's default `ddof=0`,
i.e. the population standard deviation (division by `m`, not `m−1`). -/
noncomputable def col_std {m c : ℕ} (x : Matrix (Fin m) (Fin c) ℝ)
    (ch : Fin c) : ℝ :=
  Real.sqrt ((∑ i, (x i ch - col_mean x ch) ^ 2) / m)

/-- `vectorized_correlation`: center each column by its own mean, divide the
centered cross product by `m − 1` (Bessel correction), and normalize by the
product of the population standard deviations each stabilized by `+ 1e-8`. -/
noncomputable def vectorized_correlation {m c : ℕ}
    (x y : Matrix (Fin m) (Fin c) ℝ) (ch : Fin c) : ℝ :=
  (∑ i, (x i ch - col_mean x ch) * (y i ch - col_mean y ch)) / ((m : ℝ) - 1) /
    ((col_std x ch + 1e-8) * (col_std y ch + 1e-8))

lemma col_mean_neg {m c : ℕ} (x : Matrix (Fin m) (Fin c) ℝ) (ch : Fin c) :
    col_mean (-x) ch = -col_mean x ch := by
  simp [col_mean, neg_div]

lemma col_std_neg {m c : ℕ} (x : Matrix (Fin m) (Fin c) ℝ) (ch : Fin c) :
    col_std (-x) ch = col_std x ch := by
  rw [col_std, col_std]
  congr 1
  congr 1
  refine Finset.sum_congr rfl fun i _ => ?_
  rw [col_mean_neg, Matrix.neg_apply]
  ring

lemma col_std_sq {m c : ℕ} (x : Matrix (Fin m) (Fin c) ℝ) (ch : Fin c) :
    col_std x ch ^ 2 = (∑ i, (x i ch - col_mean x ch) ^ 2) / m := by
  rw [col_std, Real.sq_sqrt]
  positivity

/-- C4 counterexample: for the 2-sample signal with values 0 and 2 (one
channel), the self-correlation is `2/(1+1e-8)²`, which differs from 1.0 by
far more than the 1e-8 stabilization tolerance. -/
theorem self_correlation_exceeds_one :
    ¬ |vectorized_correlation (Matrix.of ![![(0 : ℝ)], ![2]])
        (Matrix.of ![![(0 : ℝ)], ![2]]) 0 - 1| ≤ 1e-8 := by
  have hmean : col_mean (Matrix.of ![![(0 : ℝ)], ![2]]) 0 = 1 := by
    rw [col_mean]
    norm_num [Fin.sum_univ_two]
  have hstd : col_std (Matrix.of ![![(0 : ℝ)], ![2]]) 0 = 1 := by
    rw [col_std, hmean]
    rw [show (∑ i : Fin 2, ((Matrix.of ![![(0 : ℝ)], ![2]]) i 0 - 1) ^ 2) = 2 by
      norm_num [Fin.sum_univ_two]]
    norm_num
  have hval : vectorized_correlation (Matrix.of ![![(0 : ℝ)], ![2]])
      (Matrix.of ![![(0 : ℝ)], ![2]]) 0 = 2 / ((1 + 1e-8) * (1 + 1e-8)) := by
    rw [vectorized_correlation, hmean, hstd]
    rw [show (∑ i : Fin 2, ((Matrix.of ![![(0 : ℝ)], ![2]]) i 0 - 1) *
        ((Matrix.of ![![(0 : ℝ)], ![2]]) i 0 - 1)) = 2 by
      norm_num [Fin.sum_univ_two]]
    norm_num
  rw [hval]
  intro habs
  have hgt : (1e-8 : ℝ) < 2 / ((1 + 1e-8) * (1 + 1e-8)) - 1 := by
    rw [lt_sub_iff_add_lt, lt_div_iff₀ (by norm_num)]
    norm_num
  exact absurd (le_trans (le_abs_self _) habs) (not_le.mpr hgt)

/-- C4 amended: because the covariance is Bessel-corrected (divided by `m−1`)
while the standard deviations are population ones (divided by `m`), the
self-correlation of every channel equals `(m/(m−1))·(σ/(σ+1e-8))²` — which is
close to `m/(m−1)`, not 1 — and the correlation with the negated signal is
its negative. -/
theorem self_correlation_value {m c : ℕ} (x : Matrix (Fin (m + 2)) (Fin c) ℝ)
    (ch : Fin c) :
    vectorized_correlation x x ch =
      (((m : ℝ) + 2) / ((m : ℝ) + 1)) *
        (col_std x ch / (col_std x ch + 1e-8)) ^ 2 ∧
    vectorized_correlation x (-x) ch =
      -((((m : ℝ) + 2) / ((m : ℝ) + 1)) *
        (col_std x ch / (col_std x ch + 1e-8)) ^ 2) := by
  have hσ0 : (0 : ℝ) ≤ col_std x ch := Real.sqrt_nonneg _
  have hm2 : ((m : ℝ) + 2) ≠ 0 := by positivity
  have hS : (∑ i, (x i ch - col_mean x ch) ^ 2) =
      ((m : ℝ) + 2) * col_std x ch ^ 2 := by
    rw [col_std_sq]
    push_cast
    rw [mul_comm, div_mul_cancel₀ _ hm2]
  constructor
  · rw [vectorized_correlation]
    rw [show (∑ i, (x i ch - col_mean x ch) * (x i ch - col_mean x ch)) =
        ∑ i, (x i ch - col_mean x ch) ^ 2 by
      refine Finset.sum_congr rfl fun i _ => by ring]
    rw [hS, div_div, div_pow, div_mul_div_comm]
    congr 1
    push_cast
    ring
  · rw [vectorized_correlation, col_std_neg, col_mean_neg]
    rw [show (∑ i, (x i ch - col_mean x ch) * ((-x) i ch - -col_mean x ch)) =
        -∑ i, (x i ch - col_mean x ch) ^ 2 by
      rw [← Finset.sum_neg_distrib]
      refine Finset.sum_congr rfl fun i _ => ?_
      rw [Matrix.neg_apply]
      ring]
    rw [hS, neg_div, neg_div, div_div, div_pow, div_mul_div_comm, neg_inj]
    congr 1
    push_cast
    ring

/-- Mean across subjects per timepoint (`np.mean(..., axis=0)`). -/
def group_mean {n T : ℕ} (M : Matrix (Fin n) (Fin T) ℚ) (t : Fin T) : ℚ :=
  (∑ i, M i t) / n

/-- Multiply each subject's full timepoint-vector by its sign
(`np.multiply(results, rand_matrix)` with the sign column broadcast). -/
def sign_flip {n T : ℕ} (s : Fin n → ℚ) (M : Matrix (Fin n) (Fin T) ℚ) :
    Matrix (Fin n) (Fin T) ℚ :=
  Matrix.of fun i t => s i * M i t

/-- Group-mean difference statistic, first group minus second group. -/
def group_diff {na nb T : ℕ} (A : Matrix (Fin na) (Fin T) ℚ)
    (B : Matrix (Fin nb) (Fin T) ℚ) (t : Fin T) : ℚ :=
  group_mean A t - group_mean B t

/-- The statistical map built by `permutation_test`, with the random sign
vectors passed explicitly (one per group, per permutation): row 0 is the
observed `mean_orig_vid - mean_orig_img`; every later row is computed as
`mean_orig_img - mean_orig_vid` on the sign-flipped data, exactly as in the
source. -/
def stat_map {na nb T : ℕ} (vid : Matrix (Fin na) (Fin T) ℚ)
    (img : Matrix (Fin nb) (Fin T) ℚ) (sv : ℕ → Fin na → ℚ)
    (si : ℕ → Fin nb → ℚ) (r : ℕ) (t : Fin T) : ℚ :=
  if r = 0 then group_diff vid img t
  else group_diff (sign_flip (si r) img) (sign_flip (sv r) vid) t

/-- One-subject, one-timepoint video score matrix with constant value 1. -/
def vid1 : Matrix (Fin 1) (Fin 1) ℚ :=
  Matrix.of fun _ _ => 1

/-- One-subject, one-timepoint image score matrix with constant value 0. -/
def img1 : Matrix (Fin 1) (Fin 1) ℚ :=
  Matrix.of fun _ _ => 0

/-- A sign assignment that never flips (all signs +1). -/
def all_plus : ℕ → Fin 1 → ℚ :=
  fun _ _ => 1

/-- C3 counterexample: with one subject per group, one timepoint, video score
1, image score 0 and all flip signs equal to +1, permutation row 1 stores
`0 − 1 = −1`, not the group-A-minus-group-B value `1` that permutation 0's
directionality would give. -/
theorem permuted_stat_direction_cex :
    stat_map vid1 img1 all_plus all_plus 1 (0 : Fin 1) = -1 ∧
    stat_map vid1 img1 all_plus all_plus 1 (0 : Fin 1) ≠
      group_diff (sign_flip (all_plus 1) vid1) (sign_flip (all_plus 1) img1)
        (0 : Fin 1) := by
  constructor
  · norm_num [stat_map, group_diff, group_mean, sign_flip, vid1, img1, all_plus]
  · norm_num [stat_map, group_diff, group_mean, sign_flip, vid1, img1, all_plus]

/-- C3 amended: for every permutation index `r ≥ 1`, the statistic stored in
row `r` is the group-mean difference of the sign-flipped data with the
directionality REVERSED relative to permutation 0: it equals the negation of
the group-A (video) minus group-B (image) statistic of the flipped data. -/
theorem permuted_stat_is_negated_diff {na nb T : ℕ}
    (vid : Matrix (Fin na) (Fin T) ℚ) (img : Matrix (Fin nb) (Fin T) ℚ)
    (sv : ℕ → Fin na → ℚ) (si : ℕ → Fin nb → ℚ) (r : ℕ) (hr : 1 ≤ r)
    (t : Fin T) :
    stat_map vid img sv si r t =
      -(group_diff (sign_flip (sv r) vid) (sign_flip (si r) img) t) := by
  rw [stat_map, if_neg (by omega), group_diff, group_diff, neg_sub]

/-- Witness for `permuted_stat_is_negated_diff` at the concrete input of the
counterexample. -/
theorem permuted_stat_is_negated_diff_witness :
    stat_map vid1 img1 all_plus all_plus 1 (0 : Fin 1) =
      -(group_diff (sign_flip (all_plus 1) vid1) (sign_flip (all_plus 1) img1)
          (0 : Fin 1)) :=
  permuted_stat_is_negated_diff vid1 img1 all_plus all_plus 1 (by norm_num) 0

/-- `listMin l`: the minimum value of a nonempty list (`0` for `[]`). -/
def listMin : List ℚ → ℚ
  | [] => 0
  | [x] => x
  | x :: y :: xs => min x (listMin (y :: xs))

/-- `listMax l`: the maximum value of a nonempty list (`0` for `[]`). -/
def listMax : List ℚ → ℚ
  | [] => 0
  | [x] => x
  | x :: y :: xs => max x (listMax (y :: xs))

/-- `np.argmin`: index of the first occurrence of the minimum value. -/
def np_argmin : List ℚ → ℕ
  | [] => 0
  | [_] => 0
  | x :: y :: xs => if x ≤ listMin (y :: xs) then 0 else np_argmin (y :: xs) + 1

/-- `np.argmax`: index of the first occurrence of the maximum value. -/
def np_argmax : List ℚ → ℕ
  | [] => 0
  | [_] => 0
  | x :: y :: xs => if listMax (y :: xs) ≤ x then 0 else np_argmax (y :: xs) + 1

/-- `alpha_space[best_alpha_rmse_idx]`: the penalty-grid value selected by
the argmin over the channel-reduced RMSE scores. -/
def best_alpha_rmse (alphas scores : List ℚ) : ℚ :=
  alphas.getD (np_argmin scores) 0

/-- `alpha_space[best_alpha_corr_idx]`: the penalty-grid value selected by
the argmax over the channel-reduced correlation scores. -/
def best_alpha_corr (alphas scores : List ℚ) : ℚ :=
  alphas.getD (np_argmax scores) 0

lemma listMin_le (l : List ℚ) (a : ℚ) (ha : a ∈ l) : listMin l ≤ a := by
  induction l with
  | nil => cases ha
  | cons x xs ih =>
      cases xs with
      | nil =>
          rcases List.mem_singleton.mp ha with rfl
          exact le_of_eq rfl
      | cons y ys =>
          rw [listMin]
          rcases List.mem_cons.mp ha with rfl | hmem
          · exact min_le_left _ _
          · exact le_trans (min_le_right _ _) (ih hmem)

lemma le_listMax (l : List ℚ) (a : ℚ) (ha : a ∈ l) : a ≤ listMax l := by
  induction l with
  | nil => cases ha
  | cons x xs ih =>
      cases xs with
      | nil =>
          rcases List.mem_singleton.mp ha with rfl
          exact le_of_eq rfl
      | cons y ys =>
          rw [listMax]
          rcases List.mem_cons.mp ha with rfl | hmem
          · exact le_max_left _ _
          · exact le_trans (ih hmem) (le_max_right _ _)

lemma getD_np_argmin (l : List ℚ) (hl : l ≠ []) :
    l.getD (np_argmin l) 0 = listMin l := by
  induction l with
  | nil => exact absurd rfl hl
  | cons x xs ih =>
      cases xs with
      | nil => rfl
      | cons y ys =>
          rw [np_argmin, listMin]
          by_cases h : x ≤ listMin (y :: ys)
          · rw [if_pos h]
            exact (min_eq_left h).symm
          · rw [if_neg h, List.getD_cons_succ, ih (by simp),
              min_eq_right (le_of_lt (lt_of_not_le h))]

lemma getD_np_argmax (l : List ℚ) (hl : l ≠ []) :
    l.getD (np_argmax l) 0 = listMax l := by
  induction l with
  | nil => exact absurd rfl hl
  | cons x xs ih =>
      cases xs with
      | nil => rfl
      | cons y ys =>
          rw [np_argmax, listMax]
          by_cases h : listMax (y :: ys) ≤ x
          · rw [if_pos h]
            exact (max_eq_left h).symm
          · rw [if_neg h, List.getD_cons_succ, ih (by simp),
              max_eq_right (le_of_lt (lt_of_not_le h))]

lemma np_argmin_first (l : List ℚ) (k : ℕ) (hk : k < np_argmin l) :
    listMin l < l.getD k 0 := by
  induction l generalizing k with
  | nil => rw [np_argmin] at hk; omega
  | cons x xs ih =>
      cases xs with
      | nil => rw [np_argmin] at hk; omega
      | cons y ys =>
          rw [np_argmin] at hk
          by_cases h : x ≤ listMin (y :: ys)
          · rw [if_pos h] at hk; omega
          · rw [if_neg h] at hk
            rw [listMin, min_eq_right (le_of_lt (lt_of_not_le h))]
            cases k with
            | zero => exact lt_of_not_le h
            | succ k' => exact ih k' (by omega)

lemma np_argmax_first (l : List ℚ) (k : ℕ) (hk : k < np_argmax l) :
    l.getD k 0 < listMax l := by
  induction l generalizing k with
  | nil => rw [np_argmax] at hk; omega
  | cons x xs ih =>
      cases xs with
      | nil => rw [np_argmax] at hk; omega
      | cons y ys =>
          rw [np_argmax] at hk
          by_cases h : listMax (y :: ys) ≤ x
          · rw [if_pos h] at hk; omega
          · rw [if_neg h] at hk
            rw [listMax, max_eq_right (le_of_lt (lt_of_not_le h))]
            cases k with
            | zero => exact lt_of_not_le h
            | succ k' => exact ih k' (by omega)

/-- C6: when two penalty indices tie for the extremal channel-reduced score
(minimal RMSE at indices `i < j`, maximal correlation at indices `k < kl`),
the selection picks the lowest-index occurrence: the chosen index attains the
extremum, is at most the lower tied index, and the returned best penalty is
the grid value at that lowest index. -/
theorem tie_break_selects_lowest_index (alphas s t : List ℚ)
    (i j k kl : ℕ) (hij : i < j) (hj : j < s.length)
    (hsi : s.getD i 0 = listMin s) (hsj : s.getD j 0 = listMin s)
    (hkkl : k < kl) (hkl : kl < t.length)
    (htk : t.getD k 0 = listMax t) (htkl : t.getD kl 0 = listMax t) :
    (np_argmin s ≤ i ∧ s.getD (np_argmin s) 0 = s.getD i 0 ∧
      best_alpha_rmse alphas s = alphas.getD (np_argmin s) 0) ∧
    (np_argmax t ≤ k ∧ t.getD (np_argmax t) 0 = t.getD k 0 ∧
      best_alpha_corr alphas t = alphas.getD (np_argmax t) 0) := by
  have hs : s ≠ [] := by
    intro h
    rw [h] at hj
    simp at hj
  have ht : t ≠ [] := by
    intro h
    rw [h] at hkl
    simp at hkl
  refine ⟨⟨?_, ?_, rfl⟩, ⟨?_, ?_, rfl⟩⟩
  · by_contra hlt
    exact absurd hsi (ne_of_gt (np_argmin_first s i (by omega)))
  · rw [getD_np_argmin s hs, hsi]
  · by_contra hlt
    exact absurd htk (ne_of_lt (np_argmax_first t k (by omega)))
  · rw [getD_np_argmax t ht, htk]

/-- Witness for `tie_break_selects_lowest_index`: grid `[1,2,3]`, RMSE scores
`[5,3,3]` tying at indices 1 and 2, correlation scores `[1,7,7]` tying at
indices 1 and 2. -/
theorem tie_break_selects_lowest_index_witness :
    (np_argmin [5, 3, 3] ≤ 1 ∧
      List.getD ([5, 3, 3] : List ℚ) (np_argmin [5, 3, 3]) 0 =
        List.getD ([5, 3, 3] : List ℚ) 1 0 ∧
      best_alpha_rmse [1, 2, 3] [5, 3, 3] =
        List.getD ([1, 2, 3] : List ℚ) (np_argmin [5, 3, 3]) 0) ∧
    (np_argmax [1, 7, 7] ≤ 1 ∧
      List.getD ([1, 7, 7] : List ℚ) (np_argmax [1, 7, 7]) 0 =
        List.getD ([1, 7, 7] : List ℚ) 1 0 ∧
      best_alpha_corr [1, 2, 3] [1, 7, 7] =
        List.getD ([1, 2, 3] : List ℚ) (np_argmax [1, 7, 7]) 0) :=
  tie_break_selects_lowest_index [1, 2, 3] [5, 3, 3] [1, 7, 7] 1 2 1 2
    (by norm_num) (by norm_num)
    (by norm_num [listMin]) (by norm_num [listMin])
    (by norm_num) (by norm_num)
    (by norm_num [listMax]) (by norm_num [listMax])

/-- 0-based lower percentile position `int(np.ceil(n_perm * 0.025))` used by
the accuracy-CI extraction in `bootstrapping_CI`. -/
def ci_lower_idx (n : ℕ) : ℕ :=
  ⌈(n : ℚ) * (25 / 1000)⌉₊

/-- 0-based upper percentile position `int(np.ceil(n_perm * 0.975))` used by
the accuracy-CI extraction in `bootstrapping_CI`. -/
def ci_upper_idx (n : ℕ) : ℕ :=
  ⌈(n : ℚ) * (975 / 1000)⌉₊

/-- The per-timepoint accuracy CI extraction: sort the length-`n_perm`
bootstrap distribution ascending and read positions `ci_lower_idx` and
`ci_upper_idx`; an out-of-range read (an `IndexError` in the source) is
`none`. -/
def ci_bounds (dist : List ℚ) : Option (ℚ × ℚ) :=
  match (dist.insertionSort (· ≤ ·))[ci_lower_idx dist.length]?,
      (dist.insertionSort (· ≤ ·))[ci_upper_idx dist.length]? with
  | some lo, some hi => some (lo, hi)
  | _, _ => none

/-- C9: the accuracy-CI extraction reads the sorted length-`n_perm` bootstrap
distribution only at the 0-based positions `⌈0.025·n_perm⌉` and
`⌈0.975·n_perm⌉`; for `n_perm ≥ 40` both positions are in bounds and the
extraction succeeds, while for every `1 ≤ n_perm < 40` the upper position is
out of bounds and the extraction fails. -/
theorem ci_extraction_bounds (dist : List ℚ) (h1 : 1 ≤ dist.length) :
    (40 ≤ dist.length →
      ci_lower_idx dist.length < dist.length ∧
      ci_upper_idx dist.length < dist.length ∧ (ci_bounds dist).isSome) ∧
    (dist.length < 40 →
      dist.length ≤ ci_upper_idx dist.length ∧ (ci_bounds dist).isNone) := by
  set n := dist.length with hn
  have hlen : (dist.insertionSort (· ≤ ·)).length = n :=
    List.length_insertionSort _ _
  constructor
  · intro h40
    have hcast : (40 : ℚ) ≤ (n : ℚ) := by exact_mod_cast h40
    have hlow : ci_lower_idx n < n := by
      have hle : ci_lower_idx n ≤ n - 1 := by
        rw [ci_lower_idx, Nat.ceil_le, Nat.cast_sub h1]
        push_cast
        linarith
      omega
    have hup : ci_upper_idx n < n := by
      have hle : ci_upper_idx n ≤ n - 1 := by
        rw [ci_upper_idx, Nat.ceil_le, Nat.cast_sub h1]
        push_cast
        linarith
      omega
    refine ⟨hlow, hup, ?_⟩
    rw [ci_bounds,
      List.getElem?_eq_getElem (by rw [hlen]; exact hlow),
      List.getElem?_eq_getElem (by rw [hlen]; exact hup)]
    rfl
  · intro h40
    have hup : n ≤ ci_upper_idx n := by
      by_contra hcon
      have hle : ci_upper_idx n ≤ n - 1 := by omega
      rw [ci_upper_idx, Nat.ceil_le, Nat.cast_sub h1] at hle
      have hcast : (n : ℚ) ≤ 39 := by
        have : n ≤ 39 := by omega
        exact_mod_cast this
      have hone : (1 : ℚ) ≤ (n : ℚ) := by exact_mod_cast h1
      push_cast at hle
      linarith
    refine ⟨hup, ?_⟩
    have hnone : (dist.insertionSort (· ≤ ·))[ci_upper_idx n]? = none := by
      rw [List.getElem?_eq_none]
      rw [hlen]
      exact hup
    rw [ci_bounds]
    rw [hn] at hnone
    rw [hnone]
    rcases (dist.insertionSort (· ≤ ·))[ci_lower_idx dist.length]? with _ | lo
    · rfl
    · rfl

/-- Witness for `ci_extraction_bounds` at the concrete distribution of 40
zeros (`n_perm = 40`, the boundary where both reads are in bounds). -/
theorem ci_extraction_bounds_witness :
    (40 ≤ (List.replicate 40 (0 : ℚ)).length →
      ci_lower_idx (List.replicate 40 (0 : ℚ)).length <
        (List.replicate 40 (0 : ℚ)).length ∧
      ci_upper_idx (List.replicate 40 (0 : ℚ)).length <
        (List.replicate 40 (0 : ℚ)).length ∧
      (ci_bounds (List.replicate 40 (0 : ℚ))).isSome) ∧
    ((List.replicate 40 (0 : ℚ)).length < 40 →
      (List.replicate 40 (0 : ℚ)).length ≤
        ci_upper_idx (List.replicate 40 (0 : ℚ)).length ∧
      (ci_bounds (List.replicate 40 (0 : ℚ))).isNone) :=
  ci_extraction_bounds (List.replicate 40 (0 : ℚ)) (by simp)

/-- `time_ms[k]`: the fixed timepoint-to-millisecond lookup
`np.arange(-400, 1000, 20)`. -/
def time_ms (k : ℕ) : ℤ :=
  -400 + 20 * k

/-- Peak latency of a subjects×timepoints score matrix: millisecond timestamp
of the first timepoint attaining the maximal subject-mean score
(`time_ms[np.argmax(np.mean(results, axis=0))]`). -/
def peak_latency {n T : ℕ} (M : Matrix (Fin n) (Fin T) ℚ) : ℤ :=
  time_ms (np_argmax (List.ofFn fun t => group_mean M t))

/-- Resample the subject rows of a score matrix by a vector of subject
indices (`results[perm_peak_data_idx]`). -/
def resample {n T : ℕ} (M : Matrix (Fin n) (Fin T) ℚ) (idx : Fin n → Fin n) :
    Matrix (Fin n) (Fin T) ℚ :=
  Matrix.of fun i t => M (idx i) t

/-- One draw of the pairwise peak-latency-difference bootstrap in
`bootstrapping_CI` (STEP 2.9), with the drawn subject-index vectors passed
explicitly (one per draw index `r`): the source draws `perm_peak_data_idx`
once and indexes both features' matrices with it, then takes the argmax of
each resampled mean and subtracts. -/
def peak_diff_draw {n T : ℕ} (A B : Matrix (Fin n) (Fin T) ℚ)
    (idxs : ℕ → Fin n → Fin n) (r : ℕ) : ℤ :=
  time_ms (np_argmax (List.ofFn fun t => group_mean (resample A (idxs r)) t)) -
    time_ms (np_argmax (List.ofFn fun t => group_mean (resample B (idxs r)) t))

/-- C8: in every draw of the pairwise peak-latency bootstrap, both features
are resampled with the same subject-index vector of that draw (paired
resampling), and the stored statistic is the difference of the two features'
peak latencies, each computed independently from its paired resample by the
same peak procedure used for the single-feature CIs. -/
theorem paired_bootstrap_same_indices {n T : ℕ}
    (A B : Matrix (Fin n) (Fin T) ℚ) (idxs : ℕ → Fin n → Fin n) (r : ℕ) :
    peak_diff_draw A B idxs r =
      peak_latency (resample A (idxs r)) - peak_latency (resample B (idxs r)) :=
  rfl

/-- The per-feature layer sweep of the CNN `hyperparameter_tuning`, folded
over the layer list with the slab-producing scorer abstract: the first
component accumulates the per-layer score slabs `rmse_scores[l]`, the second
is the loop variable `rmse`, which is reallocated each layer and therefore
ends as the LAST layer's slab; the returned output maps `rmse_score` to this
loop variable, not to the accumulated collection. -/
def cnn_sweep {L S : Type} (layers : List L) (slab : L → S) :
    List (L × S) × Option S :=
  layers.foldl (fun acc l => (acc.1 ++ [(l, slab l)], some (slab l))) ([], none)

/-- C7: at the failing input — a CNN sweep over two layers whose slabs are
distinct (`0` and `1`) — the sweep accumulates both layers' slabs, yet the
value the output maps `rmse_score` to is only the last layer's slab, not the
full collection. -/
theorem cnn_output_keeps_last_slab_only :
    cnn_sweep [0, 1] (fun l : ℕ => l) = ([(0, 0), (1, 1)], some 1) ∧
    (cnn_sweep [0, 1] (fun l : ℕ => l)).2 ≠ some 0 := by
  constructor
  · rfl
  · intro h
    rw [cnn_sweep] at h
    simp at h

end Encoding
